import Mathlib

/-!
Verification of the text-input state machine in
`src/components/script/textinput.rs` (Servo).

The embedding models Rust strings as `List Char`: every byte-level
operation of the source (`str::len`, slicing at byte indices, UTF-16
counting) is expressed through the UTF-8 byte size of each Unicode scalar
value (`Char.utf8Size`) and an explicit UTF-16 code-unit size.  Machine
`usize` values are modelled as `Nat` (no arithmetic in the source relies
on wrap-around), `isize` as `Int`.

External collaborators are modelled as follows:

* the clipboard provider is a plain `List Char` field holding the
  clipboard contents; `set_clipboard_contents` overwrites it and
  `clipboard_contents` reads it;
* the `unicode_segmentation` crate is modelled at per-scalar-value
  granularity: every `Char` is one grapheme cluster and one word-bound
  segment.  The proofs below use only the property that the segments of a
  string concatenate to the string, which the crate guarantees;
* Rust `char::is_alphabetic` and `char::is_numeric` are modelled by the
  ASCII classifiers `Char.isAlpha` and `Char.isDigit`; no theorem below
  depends on which characters are alphanumeric;
* `debug_assert!` statements are no-ops at run time; the property checked
  by `assert_ok_selection` is modelled separately as a boolean predicate
  so that theorems can talk about it;
* conditional compilation is resolved to a non-macOS target
  (`cfg(not(target_os = "macos"))`), so the macOS-only match arms of
  `handle_keydown_aux` are absent and the non-mac bodies of the
  `Home`/`End` arms and of `is_control_key` are used.
-/

namespace Textinput

/-- UTF-16 length of one Unicode scalar value (Rust `char::len_utf16`). -/
def utf16Size (c : Char) : Nat :=
  if c.val < 0x10000 then 1 else 2

/-- UTF-8 byte length of a string (Rust `str::len`). -/
def utf8L (l : List Char) : Nat :=
  (l.map Char.utf8Size).sum

/-- UTF-16 code-unit length of a string
(Rust `s.chars().map(char::len_utf16).sum()`). -/
def utf16L (l : List Char) : Nat :=
  (l.map utf16Size).sum

/-- The longest prefix of a string that fits in `i` UTF-8 bytes: model of a
Rust byte slice `&s[..i]`.  At a character boundary `i` this is exactly the
slice the source takes (off a boundary the source panics; the model
truncates to the previous boundary). -/
def takeBytes : List Char → Nat → List Char
  | [], _ => []
  | c :: cs, i => if c.utf8Size ≤ i then c :: takeBytes cs (i - c.utf8Size) else []

/-- Complement of `takeBytes`: model of a Rust byte slice `&s[i..]`. -/
def dropBytes : List Char → Nat → List Char
  | [], _ => []
  | c :: cs, i => if c.utf8Size ≤ i then dropBytes cs (i - c.utf8Size) else c :: cs

/-- Model of a Rust byte slice `&s[a..b]`. -/
def sliceBytes (l : List Char) (a b : Nat) : List Char :=
  takeBytes (dropBytes l a) (b - a)

/-- `i` is a UTF-8 character boundary of `l` (`str::is_char_boundary`). -/
def isCharBoundary : List Char → Nat → Bool
  | _, 0 => true
  | [], _ + 1 => false
  | c :: cs, i + 1 =>
    if c.utf8Size ≤ i + 1 then isCharBoundary cs (i + 1 - c.utf8Size) else false

/-- 0-based line number and 0-based column number in UTF-8 bytes
(source struct `TextPoint`). -/
structure TextPoint where
  line : Nat
  index : Nat
deriving DecidableEq, Repr

/-- Lexicographic order on text points, as derived by Rust
`PartialOrd` on `TextPoint` (compare `line`, then `index`). -/
def ptLe (a b : TextPoint) : Bool :=
  a.line < b.line ∨ (a.line = b.line ∧ a.index ≤ b.index)

/-- Strict lexicographic order on text points. -/
def ptLt (a b : TextPoint) : Bool :=
  a.line < b.line ∨ (a.line = b.line ∧ a.index < b.index)

/-- Source enum `Selection`. -/
inductive Selection where
  | Selected
  | NotSelected
deriving DecidableEq, Repr

/-- Source enum `SelectionDirection`. -/
inductive SelectionDirection where
  | Forward
  | Backward
  | None
deriving DecidableEq, Repr

/-- Source enum `Direction` (the direction in which to delete or move). -/
inductive Direction where
  | Forward
  | Backward
deriving DecidableEq, Repr

/-- Source enum `KeyReaction`. -/
inductive KeyReaction where
  | TriggerDefaultAction
  | DispatchInput
  | RedrawSelection
  | Nothing
deriving DecidableEq, Repr

/-- Source struct `SelectionState`. -/
structure SelectionState where
  start : TextPoint
  stop : TextPoint
  direction : SelectionDirection
deriving DecidableEq, Repr

/-- The keys the dispatcher distinguishes (subset of
`msg::constellation_msg::Key` that appears in the source). -/
inductive Key where
  | A | B | C | E | F | V
  | Delete | Backspace
  | Left | Right | Up | Down
  | Enter | KpEnter
  | Home | End
  | PageUp | PageDown
  | Other
deriving DecidableEq, Repr

/-- Modifier bit-set (`KeyModifiers`): one flag per modifier bit. -/
structure KeyModifiers where
  shift : Bool
  control : Bool
  alt : Bool
  superKey : Bool
deriving DecidableEq, Repr

/-- Source struct `TextInput`.  The clipboard provider is modelled by the
clipboard contents it stores. -/
structure TextInput where
  lines : List (List Char)
  edit_point : TextPoint
  selection_origin : Option TextPoint
  multiline : Bool
  clipboard_provider : List Char
  max_length : Option Nat
  min_length : Option Nat
  selection_direction : SelectionDirection
deriving DecidableEq, Repr

/-- `is_control_key` for `cfg(not(target_os = "macos"))`:
`mods.contains(CONTROL) && !mods.contains(SUPER | ALT)`. -/
def is_control_key (mods : KeyModifiers) : Bool :=
  mods.control ∧ ¬ (mods.superKey ∧ mods.alt)

/-- The length in bytes of the first n characters in a UTF-8 string
(source `len_of_first_n_chars`); if the string has fewer than n
characters, the length of the whole string. -/
def len_of_first_n_chars (text : List Char) (n : Nat) : Nat :=
  utf8L (text.take n)

/-- Accumulator loop of `len_of_first_n_code_units`: walks the characters,
adding each UTF-16 size to `u16acc` and breaking as soon as the UTF-16
count would exceed `n`; returns the UTF-8 bytes consumed. -/
def lofncuGo : List Char → Nat → Nat → Nat → Nat
  | [], _, u8acc, _ => u8acc
  | c :: cs, n, u8acc, u16acc =>
    let u16acc := u16acc + utf16Size c
    if u16acc > n then u8acc
    else lofncuGo cs n (u8acc + c.utf8Size) u16acc

/-- The length in bytes of the first n code units of a string when encoded
in UTF-16 (source `len_of_first_n_code_units`). -/
def len_of_first_n_code_units (text : List Char) (n : Nat) : Nat :=
  lofncuGo text n 0 0

/-- Rust `str::split(sep)` semantics on a character predicate: always at
least one segment, empty segments between consecutive separators. -/
def splitOnP (p : Char → Bool) : List Char → List (List Char)
  | [] => [[]]
  | c :: cs => if p c then [] :: splitOnP p cs else (splitOnP p cs).modifyHead (c :: ·)

/-- Apply `f` to the last element of a list (models `push_str` onto the
last line of a line vector). -/
def modifyLast (f : List Char → List Char) : List (List Char) → List (List Char)
  | [] => []
  | [a] => [f a]
  | a :: b :: rest => a :: modifyLast f (b :: rest)

/-- Join lines with a single newline between consecutive lines. -/
def joinNl : List (List Char) → List Char
  | [] => []
  | [l] => l
  | l :: l2 :: rest => l ++ '\n' :: joinNl (l2 :: rest)

/-- Rust `str::replace("\r\n", "\n")`: left-to-right, non-overlapping. -/
def replaceCRLF : List Char → List Char
  | [] => []
  | [c] => [c]
  | c :: c2 :: rest =>
    if c = '\r' ∧ c2 = '\n' then '\n' :: replaceCRLF rest
    else c :: replaceCRLF (c2 :: rest)

/-- Model of `usize::MAX` (the sentinel for an unbounded insertion). -/
def USIZE_MAX : Nat := 2 ^ 64 - 1

/-! ### Length queries and offset conversion (methods reading `self.lines`) -/

/-- Source `TextInput::len`: byte length of the content, each inter-line
join counting one byte. -/
def len (lines : List (List Char)) : Nat :=
  (lines.foldl (fun m l => m + utf8L l + 1) 0) - 1

/-- Source `TextInput::utf16_len`. -/
def utf16_len (lines : List (List Char)) : Nat :=
  (lines.foldl (fun m l => m + utf16L l + 1) 0) - 1

/-- Source `TextInput::char_count`. -/
def char_count (lines : List (List Char)) : Nat :=
  (lines.foldl (fun m l => m + l.length + 1) 0) - 1

/-- Source `TextInput::is_empty`. -/
def is_empty (lines : List (List Char)) : Bool :=
  decide (lines.length ≤ 1) && (match lines.head? with
    | some line => line.isEmpty
    | none => true)

/-- Loop body of `get_content`: append the line, and a newline after every
line except the last. -/
def gcBody (count : Nat) (content : List Char) (p : Nat × List Char) : List Char :=
  let content := content ++ p.2
  if p.1 < count - 1 then content ++ ['\n'] else content

/-- Source `TextInput::get_content`: lines joined by a newline. -/
def get_content (lines : List (List Char)) : List Char :=
  lines.enum.foldl (gcBody lines.length) []

/-- Fold body of `text_point_to_offset`: add `len + 1` for every line
strictly before the target line. -/
def tptoBody (tp : TextPoint) (acc : Nat) (p : Nat × List Char) : Nat :=
  if p.1 < tp.line then acc + utf8L p.2 + 1 else acc

/-- Source `TextInput::text_point_to_offset`: byte offset from the start
of the content. -/
def text_point_to_offset (lines : List (List Char)) (text_point : TextPoint) : Nat :=
  (lines.enum.foldl (tptoBody text_point) 0) + text_point.index

/-- Fold body of `offset_to_text_point`.  The state is the fold
accumulator together with the two variables the source mutates:
`(acc, index, line)`. -/
def otpBody (last_line_idx : Nat) (abs_point : Nat) :
    Nat × Nat × Nat → Nat × List Char → Nat × Nat × Nat :=
  fun st p =>
    let acc := st.1
    let index := st.2.1
    let line := st.2.2
    if p.1 ≠ last_line_idx then
      let line_end := utf8L p.2
      let new_acc := acc + line_end + 1
      if abs_point ≥ new_acc ∧ index > line_end then
        (new_acc, index - (line_end + 1), line + 1)
      else (new_acc, index, line)
    else (acc, index, line)

/-- Source `TextInput::offset_to_text_point`: walk the lines, moving the
offset down a line while it does not fall inside the current line; the
last line is never passed. -/
def offset_to_text_point (lines : List (List Char)) (abs_point : Nat) : TextPoint :=
  let last_line_idx := lines.length - 1
  let r := lines.enum.foldl (otpBody last_line_idx abs_point) (0, abs_point, 0)
  ⟨r.2.2, r.2.1⟩

/-! ### Selection queries -/

/-- Source `selection_origin_or_edit_point`. -/
def selection_origin_or_edit_point (s : TextInput) : TextPoint :=
  s.selection_origin.getD s.edit_point

/-- Source `selection_start`: start of the selection, always ≤
`selection_end` regardless of direction (given the selection invariant). -/
def selection_start (s : TextInput) : TextPoint :=
  match s.selection_direction with
  | .None | .Forward => selection_origin_or_edit_point s
  | .Backward => s.edit_point

/-- Source `selection_end`. -/
def selection_end (s : TextInput) : TextPoint :=
  match s.selection_direction with
  | .None | .Forward => s.edit_point
  | .Backward => selection_origin_or_edit_point s

/-- Source `selection_start_offset`. -/
def selection_start_offset (s : TextInput) : Nat :=
  text_point_to_offset s.lines (selection_start s)

/-- Source `selection_end_offset`. -/
def selection_end_offset (s : TextInput) : Nat :=
  text_point_to_offset s.lines (selection_end s)

/-- Source `has_selection`: the selection may be zero-length. -/
def has_selection (s : TextInput) : Bool :=
  s.selection_origin.isSome

/-- Source `sorted_selection_bounds`. -/
def sorted_selection_bounds (s : TextInput) : TextPoint × TextPoint :=
  (selection_start s, selection_end s)

/-- Source `selection_state`. -/
def selection_state (s : TextInput) : SelectionState :=
  ⟨selection_start s, selection_end s, s.selection_direction⟩

/-- The property checked by the source `assert_ok_selection` debug
assertions: origin (if present) within bounds and ordered against the edit
point according to the direction, and the edit point within bounds. -/
def assert_ok_selection (s : TextInput) : Bool :=
  (match s.selection_origin with
    | some b =>
      decide (b.line < s.lines.length) &&
      decide (b.index ≤ utf8L (s.lines.getD b.line [])) &&
      (match s.selection_direction with
        | .None | .Forward => ptLe b s.edit_point
        | .Backward => ptLe s.edit_point b)
    | none => true) &&
  decide (s.edit_point.line < s.lines.length) &&
  decide (s.edit_point.index ≤ utf8L (s.lines.getD s.edit_point.line []))

/-- Source `fold_selection_slices`: run the callback on the slices that,
concatenated, make up the selected text.  Out-of-range line numbers (which
would panic in the source) read as the empty line. -/
def fold_selection_slices (s : TextInput) (acc : α) (f : α → List Char → α) : α :=
  if has_selection s then
    let st := (sorted_selection_bounds s).1
    let en := (sorted_selection_bounds s).2
    if st.line = en.line then
      f acc (sliceBytes (s.lines.getD st.line []) st.index en.index)
    else
      let acc := f acc (dropBytes (s.lines.getD st.line []) st.index)
      let acc := ((s.lines.take en.line).drop (st.line + 1)).foldl
        (fun a line => f (f a ['\n']) line) acc
      let acc := f acc ['\n']
      f acc (takeBytes (s.lines.getD en.line []) en.index)
  else acc

/-- Source `get_selection_text`: `None` when the concatenated selection
slices are empty. -/
def get_selection_text (s : TextInput) : Option (List Char) :=
  let text := fold_selection_slices s [] (fun a sl => a ++ sl)
  if text.isEmpty then none else some text

/-- Source `selection_utf16_len`: UTF-16 length of the selected text. -/
def selection_utf16_len (s : TextInput) : Nat :=
  fold_selection_slices s 0 (fun n sl => n + utf16L sl)

/-- Source `current_line_length`: byte length of the line under the edit
point. -/
def current_line_length (s : TextInput) : Nat :=
  utf8L (s.lines.getD s.edit_point.line [])

/-- Source `clear_selection`. -/
def clear_selection (s : TextInput) : TextInput :=
  { s with selection_origin := none, selection_direction := .None }

/-! ### Mutation engine -/

/-- Source `replace_selection`.  `none` for the allowed count encodes the
early return taken when the length remaining after deleting the selection
already meets or exceeds `max_length`. -/
def replace_selection (s : TextInput) (insert : List Char) : TextInput :=
  if ¬ has_selection s then s
  else
    let st := (sorted_selection_bounds s).1
    let en := (sorted_selection_bounds s).2
    let allowed_to_insert_count : Option Nat :=
      match s.max_length with
      | some max_length =>
        let len_after_selection_replaced := utf16_len s.lines - selection_utf16_len s
        if len_after_selection_replaced ≥ max_length then none
        else some (max_length - len_after_selection_replaced)
      | none => some USIZE_MAX
    match allowed_to_insert_count with
    | none => s
    | some allowed =>
      let last_char_index := len_of_first_n_code_units insert allowed
      let chars_to_insert := takeBytes insert last_char_index
      let s1 := clear_selection s
      let pre := takeBytes (s1.lines.getD st.line []) st.index
      let suf := dropBytes (s1.lines.getD en.line []) en.index
      let lines_before := s1.lines.take st.line
      let lines_after := s1.lines.drop (en.line + 1)
      let insert_lines :=
        if s1.multiline then splitOnP (fun c => c = '\n') chars_to_insert
        else [chars_to_insert]
      -- new_line = prefix of the start line ++ first inserted line
      let insert_lines := insert_lines.modifyHead (pre ++ ·)
      let last_insert_lines_index := insert_lines.length - 1
      let new_edit_point : TextPoint :=
        ⟨st.line + last_insert_lines_index,
         utf8L (insert_lines.getD last_insert_lines_index [])⟩
      -- the suffix of the end line is pushed after the edit point is set
      let insert_lines := modifyLast (· ++ suf) insert_lines
      { s1 with
        lines := lines_before ++ insert_lines ++ lines_after,
        edit_point := new_edit_point }

/-! ### Navigator -/

/-- Source `adjust_vertical`: move the edit point by a number of lines,
keeping the column (measured in characters) as close as possible. -/
def adjust_vertical (s : TextInput) (adjust : Int) (select : Selection) : TextInput :=
  if ¬ s.multiline then s
  else
    let s :=
      if select = Selection.Selected then
        if s.selection_origin = none then
          { s with selection_origin := some s.edit_point }
        else s
      else clear_selection s
    let target_line : Int := (s.edit_point.line : Int) + adjust
    if target_line < 0 then
      { s with edit_point := ⟨0, 0⟩ }
    else if target_line.toNat ≥ s.lines.length then
      let last := s.lines.length - 1
      { s with edit_point := ⟨last, utf8L (s.lines.getD last [])⟩ }
    else
      let col := (takeBytes (s.lines.getD s.edit_point.line []) s.edit_point.index).length
      let tl := target_line.toNat
      { s with edit_point := ⟨tl, len_of_first_n_chars (s.lines.getD tl []) col⟩ }

/-- Source `adjust_selection_for_horizontal_change`: returns the updated
state and whether to cancel the caret move. -/
def adjust_selection_for_horizontal_change
    (s : TextInput) (adjust : Direction) (select : Selection) : TextInput × Bool :=
  if select = Selection.Selected then
    let s :=
      if s.selection_origin = none then
        { s with selection_origin := some s.edit_point }
      else s
    ({ s with selection_direction :=
        match adjust with
        | .Backward => SelectionDirection.Backward
        | .Forward => SelectionDirection.Forward }, false)
  else
    if has_selection s then
      let s :=
        { s with edit_point :=
            match adjust with
            | .Backward => selection_start s
            | .Forward => selection_end s }
      (clear_selection s, true)
    else (s, false)

mutual

/-- Source `adjust_horizontal`: move the edit point by a signed number of
bytes, spilling across line boundaries. -/
def adjust_horizontal (s : TextInput) (adjust : Int) (select : Selection) : TextInput :=
  let direction := if adjust ≥ 0 then Direction.Forward else Direction.Backward
  let r := adjust_selection_for_horizontal_change s direction select
  if r.2 then r.1
  else perform_horizontal_adjustment r.1 adjust select
termination_by (adjust.natAbs, 1)

/-- Source `perform_horizontal_adjustment`: distribute the byte adjustment
across line boundaries, consuming one unit per implicit line break. -/
def perform_horizontal_adjustment
    (s : TextInput) (adjust : Int) (select : Selection) : TextInput :=
  if adjust < 0 then
    let remaining := s.edit_point.index
    if remaining < adjust.natAbs ∧ 0 < s.edit_point.line then
      let s1 := adjust_vertical s (-1) select
      let s1 := { s1 with edit_point := { s1.edit_point with index := current_line_length s1 } }
      adjust_horizontal s1 (adjust + remaining + 1) select
    else
      { s with edit_point :=
          { s.edit_point with index := ((s.edit_point.index : Int) + adjust).toNat } }
  else
    let remaining := current_line_length s - s.edit_point.index
    if remaining < adjust.toNat ∧ s.edit_point.line + 1 < s.lines.length then
      let s1 := adjust_vertical s 1 select
      let s1 := { s1 with edit_point := { s1.edit_point with index := 0 } }
      -- one shift is consumed by the change of line, hence the -1
      adjust_horizontal s1 (adjust - remaining - 1) select
    else
      { s with edit_point :=
          { s.edit_point with
            index := min (current_line_length s) (s.edit_point.index + adjust.toNat) } }
termination_by (adjust.natAbs, 0)
decreasing_by
  · simp only [Prod.lex_def]
    omega
  · simp only [Prod.lex_def]
    omega

end

/-- Source `adjust_horizontal_by_one`: one grapheme-cluster step (one
scalar value in the segmentation model), or one byte at a line boundary. -/
def adjust_horizontal_by_one
    (s : TextInput) (direction : Direction) (select : Selection) : TextInput :=
  let r := adjust_selection_for_horizontal_change s direction select
  if r.2 then r.1
  else
    let s1 := r.1
    let current_line := s1.lines.getD s1.edit_point.line []
    let adjust : Int :=
      match direction with
      | .Forward =>
        match dropBytes current_line s1.edit_point.index with
        | c :: _ => (c.utf8Size : Int)
        | [] => 1   -- going to the next line is a one-byte offset
      | .Backward =>
        match (takeBytes current_line s1.edit_point.index).getLast? with
        | some c => -(c.utf8Size : Int)
        | none => -1   -- going to the previous line is a one-byte offset
    perform_horizontal_adjustment s1 adjust select

/-- Models Rust `x.chars().any(|x| x.is_alphabetic() || x.is_numeric())`
on a one-character word segment. -/
def isWordChar (c : Char) : Bool :=
  c.isAlpha || c.isDigit

/-- Backward word scan of `adjust_horizontal_by_word`: walk the word
segments of `input` from the end, accumulating negated byte lengths,
stopping after the first segment containing an alphanumeric character.
The argument is the reversed character list of the input slice. -/
def wordShiftBackGo : List Char → Int
  | [] => 0
  | c :: cs =>
    if isWordChar c then -(c.utf8Size : Int)
    else -(c.utf8Size : Int) + wordShiftBackGo cs

/-- Forward word scan of `adjust_horizontal_by_word`. -/
def wordShiftFwdGo : List Char → Int
  | [] => 0
  | c :: cs =>
    if isWordChar c then (c.utf8Size : Int)
    else (c.utf8Size : Int) + wordShiftFwdGo cs

/-- Source `adjust_horizontal_by_word`. -/
def adjust_horizontal_by_word
    (s : TextInput) (direction : Direction) (select : Selection) : TextInput :=
  let r := adjust_selection_for_horizontal_change s direction select
  if r.2 then r.1
  else
    let s1 := r.1
    let shift_increment : Int :=
      match direction with
      | .Backward =>
        let remaining := s1.edit_point.index
        let current_line := s1.edit_point.line
        if remaining = 0 ∧ 0 < current_line then
          let input := s1.lines.getD (current_line - 1) []
          wordShiftBackGo input.reverse - 1
        else
          let input := takeBytes (s1.lines.getD current_line []) remaining
          wordShiftBackGo input.reverse
      | .Forward =>
        let remaining := current_line_length s1 - s1.edit_point.index
        let current_line := s1.edit_point.line
        if remaining = 0 ∧ s1.edit_point.line + 1 < s1.lines.length then
          let input := s1.lines.getD (current_line + 1) []
          wordShiftFwdGo input + 1
        else
          let input := dropBytes (s1.lines.getD current_line []) s1.edit_point.index
          wordShiftFwdGo input
    adjust_horizontal s1 shift_increment select

/-- Source `adjust_horizontal_to_line_end`: move to the start or end of
the current physical line. -/
def adjust_horizontal_to_line_end
    (s : TextInput) (direction : Direction) (select : Selection) : TextInput :=
  let r := adjust_selection_for_horizontal_change s direction select
  if r.2 then r.1
  else
    let s1 := r.1
    let current_line := s1.lines.getD s1.edit_point.line []
    let shift : Int :=
      match direction with
      | .Backward => -(utf8L (takeBytes current_line s1.edit_point.index) : Int)
      | .Forward => (utf8L (dropBytes current_line s1.edit_point.index) : Int)
    perform_horizontal_adjustment s1 shift select

/-- Source `adjust_horizontal_to_limit`: jump to the very start or very
end of the document, but only when `update_text_cursor` holds. -/
def adjust_horizontal_to_limit (s : TextInput) (direction : Direction)
    (select : Selection) (update_text_cursor : Bool) : TextInput :=
  let r := adjust_selection_for_horizontal_change s direction select
  if r.2 then r.1
  else
    let s1 := r.1
    if update_text_cursor then
      match direction with
      | .Backward => { s1 with edit_point := ⟨0, 0⟩ }
      | .Forward =>
        let last := s1.lines.length - 1
        { s1 with edit_point := ⟨last, utf8L (s1.lines.getD last [])⟩ }
    else s1

/-- Source `delete_char`. -/
def delete_char (s : TextInput) (dir : Direction) : TextInput :=
  let s :=
    if s.selection_origin = none ∨ s.selection_origin = some s.edit_point then
      adjust_horizontal_by_one s dir Selection.Selected
    else s
  replace_selection s []

/-- Source `insert_string`. -/
def insert_string (s : TextInput) (str : List Char) : TextInput :=
  let s :=
    if s.selection_origin = none then
      { s with selection_origin := some s.edit_point }
    else s
  replace_selection s str

/-- Source `insert_char`. -/
def insert_char (s : TextInput) (ch : Char) : TextInput :=
  insert_string s [ch]

/-- Source `handle_return`. -/
def handle_return (s : TextInput) : TextInput × KeyReaction :=
  if ¬ s.multiline then (s, KeyReaction.TriggerDefaultAction)
  else (insert_char s '\n', KeyReaction.DispatchInput)

/-- Source `select_all`. -/
def select_all (s : TextInput) : TextInput :=
  let last_line := s.lines.length - 1
  { s with
    selection_origin := some ⟨0, 0⟩,
    edit_point := ⟨last_line, utf8L (s.lines.getD last_line [])⟩ }

/-- Source `clear_selection_to_limit`. -/
def clear_selection_to_limit
    (s : TextInput) (direction : Direction) (update_text_cursor : Bool) : TextInput :=
  adjust_horizontal_to_limit (clear_selection s) direction
    Selection.NotSelected update_text_cursor

/-- Source `set_content`: multiline content is normalised (`\r\n` to `\n`)
and split on `\n` or `\r`; single-line content is stored verbatim as one
line.  If `update_text_cursor`, the edit point is clamped into the new
buffer; the selection origin is always dropped. -/
def set_content (s : TextInput) (content : List Char) (update_text_cursor : Bool) :
    TextInput :=
  let lines :=
    if s.multiline then
      splitOnP (fun c => c = '\n' ∨ c = '\r') (replaceCRLF content)
    else [content]
  let s := { s with lines := lines }
  let s :=
    if update_text_cursor then
      let newLine := min s.edit_point.line (lines.length - 1)
      { s with edit_point :=
          ⟨newLine, min s.edit_point.index (utf8L (lines.getD newLine []))⟩ }
    else s
  { s with selection_origin := none }

/-- Source enum `Lines` (whether the control allows multiple lines). -/
inductive Lines where
  | Single
  | Multiple
deriving DecidableEq, Repr

/-- Source `TextInput::new`: build the control and normalise the initial
content through `set_content` (with `update_cursor = false`). -/
def TextInput.new (lines : Lines) (initial : List Char)
    (clipboard_provider : List Char) (max_length min_length : Option Nat)
    (selection_direction : SelectionDirection) : TextInput :=
  set_content
    { lines := [], edit_point := ⟨0, 0⟩, selection_origin := none,
      multiline := lines = Lines.Multiple, clipboard_provider := clipboard_provider,
      max_length := max_length, min_length := min_length,
      selection_direction := selection_direction }
    initial false

/-- Source `set_selection_range`: clamp `end` to the content byte length,
clamp `start` to `end`, then place origin and edit point by direction. -/
def set_selection_range (s : TextInput) (start stop : Nat)
    (direction : SelectionDirection) : TextInput :=
  let text_end := utf8L (get_content s.lines)
  let stop := if stop > text_end then text_end else stop
  let start := if start > stop then stop else start
  let s := { s with selection_direction := direction }
  match direction with
  | .None | .Forward =>
    { s with
      selection_origin := some (offset_to_text_point s.lines start),
      edit_point := offset_to_text_point s.lines stop }
  | .Backward =>
    { s with
      selection_origin := some (offset_to_text_point s.lines stop),
      edit_point := offset_to_text_point s.lines start }

/-- Source `set_edit_point_index`: byte length of the first `index`
grapheme clusters of the current line (scalar values in the segmentation
model). -/
def set_edit_point_index (s : TextInput) (index : Nat) : TextInput :=
  let byte_size := utf8L ((s.lines.getD s.edit_point.line []).take index)
  { s with edit_point := { s.edit_point with index := byte_size } }

/-! ### Key command dispatcher (non-macOS build) -/

/-- Source `handle_keydown_aux` for `cfg(not(target_os = "macos"))`,
written as the source match with its guards expanded in order.  Returns
the new state paired with the reaction. -/
def handle_keydown_aux (s : TextInput) (printable : Option Char) (key : Key)
    (mods : KeyModifiers) : TextInput × KeyReaction :=
  let maybe_select :=
    if mods.shift then Selection.Selected else Selection.NotSelected
  if key = Key.B ∧ mods.control ∧ mods.alt then
    (adjust_horizontal_by_word s Direction.Backward maybe_select,
     KeyReaction.RedrawSelection)
  else if key = Key.F ∧ mods.control ∧ mods.alt then
    (adjust_horizontal_by_word s Direction.Forward maybe_select,
     KeyReaction.RedrawSelection)
  else if key = Key.A ∧ mods.control ∧ mods.alt then
    (adjust_horizontal_to_line_end s Direction.Backward maybe_select,
     KeyReaction.RedrawSelection)
  else if key = Key.E ∧ mods.control ∧ mods.alt then
    (adjust_horizontal_to_line_end s Direction.Forward maybe_select,
     KeyReaction.RedrawSelection)
  else if key = Key.A ∧ is_control_key mods then
    (select_all s, KeyReaction.RedrawSelection)
  else if key = Key.C ∧ is_control_key mods then
    (match get_selection_text s with
      | some text => { s with clipboard_provider := text }
      | none => s,
     KeyReaction.DispatchInput)
  else if key = Key.V ∧ is_control_key mods then
    (insert_string s s.clipboard_provider, KeyReaction.DispatchInput)
  else
    match printable with
    | some c => (insert_char s c, KeyReaction.DispatchInput)
    | none =>
      if key = Key.Delete then
        (delete_char s Direction.Forward, KeyReaction.DispatchInput)
      else if key = Key.Backspace then
        (delete_char s Direction.Backward, KeyReaction.DispatchInput)
      else if key = Key.Left ∧ mods.alt then
        (adjust_horizontal_by_word s Direction.Backward maybe_select,
         KeyReaction.RedrawSelection)
      else if key = Key.Right ∧ mods.alt then
        (adjust_horizontal_by_word s Direction.Forward maybe_select,
         KeyReaction.RedrawSelection)
      else if key = Key.Left then
        (adjust_horizontal_by_one s Direction.Backward maybe_select,
         KeyReaction.RedrawSelection)
      else if key = Key.Right then
        (adjust_horizontal_by_one s Direction.Forward maybe_select,
         KeyReaction.RedrawSelection)
      else if key = Key.Up then
        (adjust_vertical s (-1) maybe_select, KeyReaction.RedrawSelection)
      else if key = Key.Down then
        (adjust_vertical s 1 maybe_select, KeyReaction.RedrawSelection)
      else if key = Key.Enter ∨ key = Key.KpEnter then
        handle_return s
      else if key = Key.Home then
        ({ s with edit_point := { s.edit_point with index := 0 } },
         KeyReaction.RedrawSelection)
      else if key = Key.End then
        ({ s with edit_point := { s.edit_point with index := current_line_length s } },
         KeyReaction.RedrawSelection)
      else if key = Key.PageUp then
        (adjust_vertical s (-28) maybe_select, KeyReaction.RedrawSelection)
      else if key = Key.PageDown then
        (adjust_vertical s 28 maybe_select, KeyReaction.RedrawSelection)
      else (s, KeyReaction.Nothing)

/-! ### Concrete states used as test inputs -/

/-- No modifier pressed. -/
def noMods : KeyModifiers := ⟨false, false, false, false⟩

/-- Only the control modifier pressed. -/
def ctrlMods : KeyModifiers := ⟨false, true, false, false⟩

/-- Content "abc" with a same-line backward selection from index 2 down to
index 1 (reachable by pressing Shift+Left at index 2). -/
def endKeyState : TextInput :=
  ⟨[['a', 'b', 'c']], ⟨0, 1⟩, some ⟨0, 2⟩, false, [], none, none, .Backward⟩

/-- Single-line content consisting of one two-byte character
(U+00E9, latin small letter e with acute). -/
def accentState : TextInput :=
  ⟨[[Char.ofNat 0xE9]], ⟨0, 0⟩, none, false, [], none, none, .None⟩

/-- Content "ab" fully selected forward. -/
def limitState : TextInput :=
  ⟨[['a', 'b']], ⟨0, 2⟩, some ⟨0, 0⟩, false, [], none, none, .Forward⟩

/-- Empty single-line content with a zero-width selection at the start and
`max_length` one UTF-16 code unit. -/
def surrogateState : TextInput :=
  ⟨[[]], ⟨0, 0⟩, some ⟨0, 0⟩, false, [], some 1, none, .None⟩

/-- U+1D11E (musical symbol G clef): one scalar value occupying two UTF-16
code units (a surrogate pair) and four UTF-8 bytes. -/
def gclef : Char := Char.ofNat 0x1D11E

/-- Multiline buffer ["abc", "de"] with the edit point at the end of
"de". -/
def verticalState : TextInput :=
  ⟨[['a', 'b', 'c'], ['d', 'e']], ⟨1, 2⟩, none, true, [], none, none, .None⟩

/-- Content "ab" with a zero-width selection at index 1 and "z" on the
clipboard. -/
def zeroWidthState : TextInput :=
  ⟨[['a', 'b']], ⟨0, 1⟩, some ⟨0, 1⟩, false, ['z'], none, none, .Forward⟩

/-- Content "ab", "a" selected forward, `max_length = 1`: deleting the
selection would leave one code unit, already at the limit. -/
def c4AboveState : TextInput :=
  ⟨[['a', 'b']], ⟨0, 1⟩, some ⟨0, 0⟩, false, [], some 1, none, .Forward⟩

/-- Content "ab" fully selected forward, `max_length = 3`: deleting the
selection leaves zero code units, strictly below the limit. -/
def c4BelowState : TextInput :=
  ⟨[['a', 'b']], ⟨0, 2⟩, some ⟨0, 0⟩, false, [], some 3, none, .Forward⟩

/-- Empty single-line buffer with a zero-width selection at the start and
`max_length` two UTF-16 code units. -/
def c5WitnessState : TextInput :=
  ⟨[[]], ⟨0, 0⟩, some ⟨0, 0⟩, false, [], some 2, none, .None⟩

/-- Proof-internal abbreviation: sum over a line list of the UTF-16 line
length plus one (the joining newline); `utf16_len` is this sum minus one. -/
def linesU16 (X : List (List Char)) : Nat :=
  (X.map (fun l => utf16L l + 1)).sum

/-! ## Helper lemmas -/

theorem utf8Size_pos (c : Char) : 0 < c.utf8Size :=
  Char.utf8Size_pos c

theorem takeBytes_zero (l : List Char) : takeBytes l 0 = [] := by
  cases l with
  | nil => rfl
  | cons c cs =>
    have := utf8Size_pos c
    simp [takeBytes]
    omega

/-! ### Split and join lemmas -/

theorem splitOnP_ne_nil (p : Char → Bool) (l : List Char) : splitOnP p l ≠ [] := by
  induction l with
  | nil => simp [splitOnP]
  | cons c cs ih =>
    by_cases h : p c <;> simp [splitOnP, h]
    · cases hs : splitOnP p cs with
      | nil => exact absurd hs ih
      | cons a rest => simp [List.modifyHead]

theorem splitOnP_sep_free (p : Char → Bool) (l : List Char) :
    ∀ seg ∈ splitOnP p l, ∀ c ∈ seg, p c = false := by
  induction l with
  | nil =>
    intro seg hseg c hc
    simp [splitOnP] at hseg
    subst hseg
    simp at hc
  | cons a cs ih =>
    intro seg hseg c hc
    by_cases h : p a
    · simp [splitOnP, h] at hseg
      rcases hseg with hseg | hseg
      · subst hseg; simp at hc
      · exact ih seg hseg c hc
    · simp only [splitOnP, h, if_neg, Bool.false_eq_true, if_false] at hseg
      cases hs : splitOnP p cs with
      | nil => exact absurd hs (splitOnP_ne_nil p cs)
      | cons s0 rest =>
        rw [hs] at hseg
        simp [List.modifyHead] at hseg
        rcases hseg with hseg | hseg
        · subst hseg
          rcases List.mem_cons.mp hc with rfl | hc2
          · simpa using h
          · exact ih s0 (by simp [hs]) c hc2
        · exact ih seg (by simp [hs, hseg]) c hc

theorem splitOnP_free_id (p : Char → Bool) (l : List Char)
    (h : ∀ c ∈ l, p c = false) : splitOnP p l = [l] := by
  induction l with
  | nil => rfl
  | cons c cs ih =>
    have hc : p c = false := h c (by simp)
    have ih2 := ih (fun x hx => h x (by simp [hx]))
    simp [splitOnP, hc, ih2, List.modifyHead]

theorem modifyHead_modifyHead (f g : List Char → List Char) (l : List (List Char)) :
    (l.modifyHead g).modifyHead f = l.modifyHead (fun x => f (g x)) := by
  cases l <;> simp [List.modifyHead]

theorem splitOnP_append_free (p : Char → Bool) (l1 l2 : List Char)
    (h : ∀ c ∈ l1, p c = false) :
    splitOnP p (l1 ++ l2) = (splitOnP p l2).modifyHead (l1 ++ ·) := by
  induction l1 with
  | nil =>
    cases h2 : splitOnP p l2 <;> simp [List.modifyHead, h2]
  | cons c cs ih =>
    have hc : p c = false := h c (by simp)
    have ih2 := ih (fun x hx => h x (by simp [hx]))
    simp [splitOnP, hc, ih2, modifyHead_modifyHead]
    rfl

theorem joinNl_cons_head (c : Char) (x : List Char) (rest : List (List Char)) :
    joinNl ((c :: x) :: rest) = c :: joinNl (x :: rest) := by
  cases rest <;> simp [joinNl]

theorem splitOnP_joinNl (p : Char → Bool) (segs : List (List Char))
    (hp : p '\n' = true) (hfree : ∀ seg ∈ segs, ∀ c ∈ seg, p c = false)
    (hne : segs ≠ []) : splitOnP p (joinNl segs) = segs := by
  induction segs with
  | nil => exact absurd rfl hne
  | cons l rest ih =>
    cases rest with
    | nil =>
      simp [joinNl]
      exact splitOnP_free_id p l (hfree l (by simp))
    | cons l2 rest2 =>
      have hl : ∀ c ∈ l, p c = false := hfree l (by simp)
      have step : joinNl (l :: l2 :: rest2) = l ++ '\n' :: joinNl (l2 :: rest2) := by
        simp [joinNl]
      rw [step, splitOnP_append_free p l _ hl]
      have : splitOnP p ('\n' :: joinNl (l2 :: rest2)) =
          [] :: splitOnP p (joinNl (l2 :: rest2)) := by
        simp [splitOnP, hp]
      rw [this, ih (fun seg hs => hfree seg (by simp [hs])) (by simp)]
      simp [List.modifyHead]

theorem joinNl_splitOnP (l : List Char) :
    joinNl (splitOnP (fun c => c = '\n') l) = l := by
  induction l with
  | nil => simp [splitOnP, joinNl]
  | cons c cs ih =>
    by_cases h : c = '\n'
    · subst h
      cases hs : splitOnP (fun c => c = '\n') cs with
      | nil => exact absurd hs (splitOnP_ne_nil _ cs)
      | cons x rest =>
        rw [hs] at ih
        simp [splitOnP, hs, joinNl, ih]
    · cases hs : splitOnP (fun c => c = '\n') cs with
      | nil => exact absurd hs (splitOnP_ne_nil _ cs)
      | cons x rest =>
        rw [hs] at ih
        simp [splitOnP, h, hs, List.modifyHead, joinNl_cons_head, ih]

theorem replaceCRLF_no_cr (l : List Char) (h : ∀ c ∈ l, c ≠ '\r') :
    replaceCRLF l = l := by
  induction l using replaceCRLF.induct with
  | case1 => rfl
  | case2 c => rfl
  | case3 c c2 rest hif ih =>
    exact absurd hif.1 (h c (by simp))
  | case4 c c2 rest hif ih =>
    have h2 : ∀ x ∈ c2 :: rest, x ≠ '\r' :=
      fun x hx => h x (List.mem_cons_of_mem c hx)
    simp only [replaceCRLF, if_neg hif]
    rw [ih h2]

theorem mem_joinNl (segs : List (List Char)) (c : Char) (h : c ∈ joinNl segs) :
    c = '\n' ∨ ∃ seg ∈ segs, c ∈ seg := by
  induction segs with
  | nil => simp [joinNl] at h
  | cons l rest ih =>
    cases rest with
    | nil =>
      simp [joinNl] at h
      exact Or.inr ⟨l, by simp, h⟩
    | cons l2 rest2 =>
      rw [show joinNl (l :: l2 :: rest2) = l ++ '\n' :: joinNl (l2 :: rest2) from by
        simp [joinNl]] at h
      rcases List.mem_append.mp h with h1 | h2
      · exact Or.inr ⟨l, by simp, h1⟩
      · rcases List.mem_cons.mp h2 with rfl | h3
        · exact Or.inl rfl
        · rcases ih h3 with h4 | ⟨seg, hs, hc⟩
          · exact Or.inl h4
          · exact Or.inr ⟨seg, List.mem_cons_of_mem l hs, hc⟩

theorem gcBody_fold (count : Nat) :
    ∀ (ls : List (List Char)) (k : Nat) (acc : List Char),
      k + ls.length = count →
      (List.enumFrom k ls).foldl (gcBody count) acc = acc ++ joinNl ls := by
  intro ls
  induction ls with
  | nil => intro k acc _; simp [joinNl]
  | cons l rest ih =>
    intro k acc h
    rw [show List.enumFrom k (l :: rest) = (k, l) :: List.enumFrom (k + 1) rest from rfl,
      List.foldl_cons]
    cases rest with
    | nil =>
      have hk : ¬ (k < count - 1) := by simp at h; omega
      simp [gcBody, hk, joinNl]
    | cons l2 rest2 =>
      have hk : k < count - 1 := by simp at h; omega
      have ih2 := ih (k + 1) (acc ++ l ++ ['\n']) (by simp at h ⊢; omega)
      simp only [gcBody, hk, if_pos] at ih2 ⊢
      rw [ih2, show joinNl (l :: l2 :: rest2) = l ++ '\n' :: joinNl (l2 :: rest2) from by
        simp [joinNl]]
      simp

theorem get_content_eq_joinNl (lines : List (List Char)) :
    get_content lines = joinNl lines := by
  unfold get_content
  rw [show lines.enum = List.enumFrom 0 lines from rfl]
  simpa using gcBody_fold lines.length lines 0 [] (by simp)

/-- The explicit record shape of `set_content`. -/
theorem set_content_eq (s : TextInput) (content : List Char) (u : Bool) :
    set_content s content u =
      { s with
        lines :=
          if s.multiline then
            splitOnP (fun c => c = '\n' ∨ c = '\r') (replaceCRLF content)
          else [content],
        edit_point :=
          if u then
            let L :=
              if s.multiline then
                splitOnP (fun c => c = '\n' ∨ c = '\r') (replaceCRLF content)
              else [content]
            ⟨min s.edit_point.line (L.length - 1),
             min s.edit_point.index
               (utf8L (L.getD (min s.edit_point.line (L.length - 1)) []))⟩
          else s.edit_point,
        selection_origin := none } := by
  unfold set_content
  cases u <;> simp

/-! ### Length and offset-conversion lemmas -/

theorem lenAux_shift (ls : List (List Char)) (a : Nat) :
    ls.foldl (fun m l => m + utf8L l + 1) a =
      a + ls.foldl (fun m l => m + utf8L l + 1) 0 := by
  induction ls generalizing a with
  | nil => simp
  | cons l rest ih =>
    rw [List.foldl_cons, List.foldl_cons, ih (a + utf8L l + 1), ih (0 + utf8L l + 1)]
    omega

theorem lenAux_pos (ls : List (List Char)) (h : ls ≠ []) :
    1 ≤ ls.foldl (fun m l => m + utf8L l + 1) 0 := by
  cases ls with
  | nil => exact absurd rfl h
  | cons l rest =>
    rw [List.foldl_cons, lenAux_shift]
    omega

theorem len_single (l : List Char) : len [l] = utf8L l := by
  simp [len]

theorem len_cons (l : List Char) (ls : List (List Char)) (h : ls ≠ []) :
    len (l :: ls) = utf8L l + 1 + len ls := by
  unfold len
  rw [List.foldl_cons, lenAux_shift]
  have := lenAux_pos ls h
  omega

theorem otpFold_stuck (x last : Nat) :
    ∀ (ls : List (List Char)) (k acc idx line : Nat), x < acc →
      ((List.enumFrom k ls).foldl (otpBody last x) (acc, idx, line)).2 = (idx, line) := by
  intro ls
  induction ls with
  | nil => intro k acc idx line _; rfl
  | cons l rest ih =>
    intro k acc idx line hacc
    rw [show List.enumFrom k (l :: rest) = (k, l) :: List.enumFrom (k + 1) rest from rfl,
      List.foldl_cons]
    by_cases hk : k ≠ last
    · have hcond : ¬ (x ≥ acc + utf8L l + 1 ∧ idx > utf8L l) := by omega
      have step : otpBody last x (acc, idx, line) (k, l) = (acc + utf8L l + 1, idx, line) := by
        simp [otpBody, hk, hcond]
      rw [step]
      exact ih (k + 1) (acc + utf8L l + 1) idx line (by omega)
    · have step : otpBody last x (acc, idx, line) (k, l) = (acc, idx, line) := by
        simp [otpBody]
        intro h
        exact absurd h hk
      rw [step]
      exact ih (k + 1) acc idx line hacc

theorem otpFold_shift_idx (x : Nat) :
    ∀ (ls : List (List Char)) (k last : Nat) (st : Nat × Nat × Nat),
      (List.enumFrom (k + 1) ls).foldl (otpBody (last + 1) x) st =
        (List.enumFrom k ls).foldl (otpBody last x) st := by
  intro ls
  induction ls with
  | nil => intro k last st; rfl
  | cons l rest ih =>
    intro k last st
    rw [show List.enumFrom (k + 1) (l :: rest) = (k + 1, l) :: List.enumFrom (k + 2) rest
        from rfl,
      show List.enumFrom k (l :: rest) = (k, l) :: List.enumFrom (k + 1) rest from rfl,
      List.foldl_cons, List.foldl_cons]
    have hbody : otpBody (last + 1) x st (k + 1, l) = otpBody last x st (k, l) := by
      simp only [otpBody]
      exact if_congr (by omega) rfl rfl
    rw [hbody]
    exact ih (k + 1) last _

theorem otpFold_shift_acc (x d : Nat) :
    ∀ (ls : List (List Char)) (k last acc idx line : Nat), d ≤ acc → d ≤ x →
      (List.enumFrom k ls).foldl (otpBody last x) (acc, idx, line) =
        (((List.enumFrom k ls).foldl (otpBody last (x - d)) (acc - d, idx, line)).1 + d,
         ((List.enumFrom k ls).foldl (otpBody last (x - d)) (acc - d, idx, line)).2) := by
  intro ls
  induction ls with
  | nil => intro k last acc idx line hd _; simp [List.enumFrom]; omega
  | cons l rest ih =>
    intro k last acc idx line hd hx
    rw [show List.enumFrom k (l :: rest) = (k, l) :: List.enumFrom (k + 1) rest from rfl,
      List.foldl_cons, List.foldl_cons]
    by_cases hk : k ≠ last
    · by_cases hcond : x ≥ acc + utf8L l + 1 ∧ idx > utf8L l
      · have hcond2 : x - d ≥ (acc - d) + utf8L l + 1 ∧ idx > utf8L l := by omega
        have s1 : otpBody last x (acc, idx, line) (k, l) =
            (acc + utf8L l + 1, idx - (utf8L l + 1), line + 1) := by
          simp [otpBody, hk, hcond]
        have s2 : otpBody last (x - d) (acc - d, idx, line) (k, l) =
            ((acc - d) + utf8L l + 1, idx - (utf8L l + 1), line + 1) := by
          simp [otpBody, hk, hcond2]
        rw [s1, s2, show (acc - d) + utf8L l + 1 = (acc + utf8L l + 1) - d from by omega]
        exact ih (k + 1) last (acc + utf8L l + 1) _ _ (by omega) hx
      · have hcond2 : ¬ (x - d ≥ (acc - d) + utf8L l + 1 ∧ idx > utf8L l) := by omega
        have s1 : otpBody last x (acc, idx, line) (k, l) =
            (acc + utf8L l + 1, idx, line) := by
          simp [otpBody, hk, hcond]
        have s2 : otpBody last (x - d) (acc - d, idx, line) (k, l) =
            ((acc - d) + utf8L l + 1, idx, line) := by
          simp [otpBody, hk, hcond2]
        rw [s1, s2, show (acc - d) + utf8L l + 1 = (acc + utf8L l + 1) - d from by omega]
        exact ih (k + 1) last (acc + utf8L l + 1) _ _ (by omega) hx
    · have s1 : otpBody last x (acc, idx, line) (k, l) = (acc, idx, line) := by
        simp [otpBody]; intro h; exact absurd h hk
      have s2 : otpBody last (x - d) (acc - d, idx, line) (k, l) = (acc - d, idx, line) := by
        simp [otpBody]; intro h; exact absurd h hk
      rw [s1, s2]
      exact ih (k + 1) last acc _ _ hd hx

theorem otpFold_shift_line (x : Nat) :
    ∀ (ls : List (List Char)) (k last acc idx line : Nat),
      (List.enumFrom k ls).foldl (otpBody last x) (acc, idx, line) =
        (((List.enumFrom k ls).foldl (otpBody last x) (acc, idx, 0)).1,
         ((List.enumFrom k ls).foldl (otpBody last x) (acc, idx, 0)).2.1,
         ((List.enumFrom k ls).foldl (otpBody last x) (acc, idx, 0)).2.2 + line) := by
  intro ls
  induction ls with
  | nil => intro k last acc idx line; simp [List.enumFrom]
  | cons l rest ih =>
    intro k last acc idx line
    rw [show List.enumFrom k (l :: rest) = (k, l) :: List.enumFrom (k + 1) rest from rfl,
      List.foldl_cons, List.foldl_cons]
    by_cases hk : k ≠ last
    · by_cases hcond : x ≥ acc + utf8L l + 1 ∧ idx > utf8L l
      · have s1 : otpBody last x (acc, idx, line) (k, l) =
            (acc + utf8L l + 1, idx - (utf8L l + 1), line + 1) := by
          simp [otpBody, hk, hcond]
        have s2 : otpBody last x (acc, idx, 0) (k, l) =
            (acc + utf8L l + 1, idx - (utf8L l + 1), 1) := by
          simp [otpBody, hk, hcond]
        rw [s1, s2, ih (k + 1) last _ _ (line + 1), ih (k + 1) last _ _ 1]
        simp only [Prod.mk.injEq]
        refine ⟨trivial, trivial, by omega⟩
      · have s1 : otpBody last x (acc, idx, line) (k, l) = (acc + utf8L l + 1, idx, line) := by
          simp [otpBody, hk, hcond]
        have s2 : otpBody last x (acc, idx, 0) (k, l) = (acc + utf8L l + 1, idx, 0) := by
          simp [otpBody, hk, hcond]
        rw [s1, s2]
        exact ih (k + 1) last _ _ line
    · have s1 : otpBody last x (acc, idx, line) (k, l) = (acc, idx, line) := by
        simp [otpBody]; intro h; exact absurd h hk
      have s2 : otpBody last x (acc, idx, 0) (k, l) = (acc, idx, 0) := by
        simp [otpBody]; intro h; exact absurd h hk
      rw [s1, s2]
      exact ih (k + 1) last _ _ line

theorem otp_single (l : List Char) (x : Nat) :
    offset_to_text_point [l] x = ⟨0, x⟩ := rfl

theorem otp_cons (l : List Char) (ls : List (List Char)) (hne : ls ≠ []) (x : Nat) :
    offset_to_text_point (l :: ls) x =
      if utf8L l + 1 ≤ x then
        ⟨(offset_to_text_point ls (x - (utf8L l + 1))).line + 1,
         (offset_to_text_point ls (x - (utf8L l + 1))).index⟩
      else ⟨0, x⟩ := by
  have hlen : 1 ≤ ls.length := by
    cases ls with
    | nil => exact absurd rfl hne
    | cons a b => simp
  have h0 : (0 : Nat) ≠ ls.length := by omega
  have hdef : offset_to_text_point (l :: ls) x =
      ⟨(List.foldl (otpBody ls.length x) (0, x, 0) ((0, l) :: List.enumFrom 1 ls)).2.2,
       (List.foldl (otpBody ls.length x) (0, x, 0) ((0, l) :: List.enumFrom 1 ls)).2.1⟩ :=
    rfl
  by_cases hx : utf8L l + 1 ≤ x
  · have hcond : x ≥ 0 + utf8L l + 1 ∧ x > utf8L l := by omega
    have step : otpBody ls.length x (0, x, 0) (0, l) =
        (utf8L l + 1, x - (utf8L l + 1), 1) := by
      simp [otpBody, h0, hcond]
      omega
    have chain1 : List.foldl (otpBody ls.length x) (0, x, 0)
          ((0, l) :: List.enumFrom 1 ls)
        = List.foldl (otpBody ls.length x) (utf8L l + 1, x - (utf8L l + 1), 1)
          (List.enumFrom 1 ls) := by
      rw [List.foldl_cons, step]
    have chain2 : List.foldl (otpBody ls.length x) (utf8L l + 1, x - (utf8L l + 1), 1)
          (List.enumFrom 1 ls)
        = List.foldl (otpBody (ls.length - 1) x) (utf8L l + 1, x - (utf8L l + 1), 1)
          (List.enumFrom 0 ls) := by
      have e2 : otpBody ls.length x = otpBody ((ls.length - 1) + 1) x := by
        rw [Nat.sub_add_cancel hlen]
      rw [e2]
      exact otpFold_shift_idx x ls 0 (ls.length - 1) _
    have chain3 := otpFold_shift_acc x (utf8L l + 1) ls 0 (ls.length - 1)
      (utf8L l + 1) (x - (utf8L l + 1)) 1 (le_refl _) hx
    rw [Nat.sub_self] at chain3
    have chain4 := otpFold_shift_line (x - (utf8L l + 1)) ls 0 (ls.length - 1)
      0 (x - (utf8L l + 1)) 1
    rw [hdef, chain1, chain2, chain3, chain4, if_pos hx]
    rfl
  · have hcond : ¬ (x ≥ 0 + utf8L l + 1 ∧ x > utf8L l) := by omega
    have step : otpBody ls.length x (0, x, 0) (0, l) = (0 + utf8L l + 1, x, 0) := by
      simp [otpBody, h0, hcond]
      omega
    have chain1 : List.foldl (otpBody ls.length x) (0, x, 0)
          ((0, l) :: List.enumFrom 1 ls)
        = List.foldl (otpBody ls.length x) (0 + utf8L l + 1, x, 0)
          (List.enumFrom 1 ls) := by
      rw [List.foldl_cons, step]
    have hst := otpFold_stuck x ls.length ls 1 (0 + utf8L l + 1) x 0 (by omega)
    rw [hdef, chain1, if_neg hx]
    rw [TextPoint.mk.injEq]
    constructor
    · exact congrArg Prod.snd hst
    · exact congrArg Prod.fst hst

theorem tptoFold_zero (idx : Nat) :
    ∀ (ls : List (List Char)) (k acc : Nat),
      (List.enumFrom k ls).foldl (tptoBody ⟨0, idx⟩) acc = acc := by
  intro ls
  induction ls with
  | nil => intro k acc; rfl
  | cons l rest ih =>
    intro k acc
    rw [show List.enumFrom k (l :: rest) = (k, l) :: List.enumFrom (k + 1) rest from rfl,
      List.foldl_cons]
    have : tptoBody ⟨0, idx⟩ acc (k, l) = acc := by simp [tptoBody]
    rw [this]
    exact ih (k + 1) acc

theorem tptoFold_shift (line idx : Nat) :
    ∀ (ls : List (List Char)) (k acc : Nat),
      (List.enumFrom (k + 1) ls).foldl (tptoBody ⟨line + 1, idx⟩) acc =
        (List.enumFrom k ls).foldl (tptoBody ⟨line, idx⟩) acc := by
  intro ls
  induction ls with
  | nil => intro k acc; rfl
  | cons l rest ih =>
    intro k acc
    rw [show List.enumFrom (k + 1) (l :: rest) = (k + 1, l) :: List.enumFrom (k + 2) rest
        from rfl,
      show List.enumFrom k (l :: rest) = (k, l) :: List.enumFrom (k + 1) rest from rfl,
      List.foldl_cons, List.foldl_cons]
    have hbody : tptoBody ⟨line + 1, idx⟩ acc (k + 1, l) = tptoBody ⟨line, idx⟩ acc (k, l) := by
      simp only [tptoBody]
      exact if_congr (by omega) rfl rfl
    rw [hbody]
    exact ih (k + 1) _

theorem tpto_zero (lines : List (List Char)) (idx : Nat) :
    text_point_to_offset lines ⟨0, idx⟩ = idx := by
  have hdef : text_point_to_offset lines ⟨0, idx⟩ =
      (List.enumFrom 0 lines).foldl (tptoBody ⟨0, idx⟩) 0 + idx := rfl
  rw [hdef, tptoFold_zero idx lines 0 0]
  omega

theorem tptoFold_acc (line idx : Nat) :
    ∀ (ms : List (List Char)) (k a : Nat),
      (List.enumFrom k ms).foldl (tptoBody ⟨line, idx⟩) a =
        a + (List.enumFrom k ms).foldl (tptoBody ⟨line, idx⟩) 0 := by
  intro ms
  induction ms with
  | nil => intro k a; simp [List.enumFrom]
  | cons m rest ih =>
    intro k a
    rw [show List.enumFrom k (m :: rest) = (k, m) :: List.enumFrom (k + 1) rest from rfl,
      List.foldl_cons, List.foldl_cons]
    by_cases hk : k < line
    · have e1 : tptoBody ⟨line, idx⟩ a (k, m) = a + utf8L m + 1 := by simp [tptoBody, hk]
      have e2 : tptoBody ⟨line, idx⟩ 0 (k, m) = 0 + utf8L m + 1 := by simp [tptoBody, hk]
      rw [e1, e2, ih (k + 1) (a + utf8L m + 1), ih (k + 1) (0 + utf8L m + 1)]
      omega
    · have e1 : tptoBody ⟨line, idx⟩ a (k, m) = a := by simp [tptoBody, hk]
      have e2 : tptoBody ⟨line, idx⟩ 0 (k, m) = 0 := by simp [tptoBody, hk]
      rw [e1, e2, ih (k + 1) a]

theorem tpto_succ (l : List Char) (ls : List (List Char)) (line idx : Nat) :
    text_point_to_offset (l :: ls) ⟨line + 1, idx⟩ =
      utf8L l + 1 + text_point_to_offset ls ⟨line, idx⟩ := by
  have hdef1 : text_point_to_offset (l :: ls) ⟨line + 1, idx⟩ =
      List.foldl (tptoBody ⟨line + 1, idx⟩) 0 ((0, l) :: List.enumFrom 1 ls) + idx := rfl
  have hdef2 : text_point_to_offset ls ⟨line, idx⟩ =
      List.foldl (tptoBody ⟨line, idx⟩) 0 (List.enumFrom 0 ls) + idx := rfl
  have step : tptoBody ⟨line + 1, idx⟩ 0 (0, l) = 0 + utf8L l + 1 := by
    simp [tptoBody]
  have chain1 : List.foldl (tptoBody ⟨line + 1, idx⟩) 0 ((0, l) :: List.enumFrom 1 ls)
      = List.foldl (tptoBody ⟨line, idx⟩) (0 + utf8L l + 1) (List.enumFrom 0 ls) := by
    rw [List.foldl_cons, step]
    exact tptoFold_shift line idx ls 0 _
  rw [hdef1, hdef2, chain1, tptoFold_acc line idx ls 0 (0 + utf8L l + 1)]
  omega

theorem otp_tpto_roundtrip_lines :
    ∀ (ls : List (List Char)), ls ≠ [] → ∀ x, x ≤ len ls →
      text_point_to_offset ls (offset_to_text_point ls x) = x := by
  intro ls
  induction ls with
  | nil => intro h; exact absurd rfl h
  | cons l rest ih =>
    intro _ x hx
    cases rest with
    | nil => rw [otp_single, tpto_zero]
    | cons l2 rest2 =>
      rw [otp_cons l (l2 :: rest2) (by simp) x]
      by_cases hsplit : utf8L l + 1 ≤ x
      · simp only [hsplit, if_pos]
        rw [show (offset_to_text_point (l2 :: rest2) (x - (utf8L l + 1))).line + 1
            = (offset_to_text_point (l2 :: rest2) (x - (utf8L l + 1))).line + 1 from rfl]
        rw [tpto_succ]
        have hx2 : x - (utf8L l + 1) ≤ len (l2 :: rest2) := by
          rw [len_cons l (l2 :: rest2) (by simp)] at hx
          omega
        rw [ih (by simp) (x - (utf8L l + 1)) hx2]
        omega
      · simp only [hsplit, if_neg]
        exact tpto_zero _ x

/-- One `set_content(_, true)` round trip of the current content is
idempotent, whatever content it is given: the lines produced by the first
call are line-terminator free, so joining and re-splitting them is the
identity, and the edit-point clamp is idempotent. -/
theorem set_content_roundtrip (s : TextInput) (content : List Char) :
    set_content (set_content s content true)
      (get_content ((set_content s content true).lines)) true
      = set_content s content true := by
  obtain ⟨ls, ep0, so, ml, cb, mx, mn, sd⟩ := s
  cases ml
  case false =>
    rw [set_content_eq, set_content_eq]
    simp only [TextInput.mk.injEq]
    simp [get_content_eq_joinNl, joinNl, Nat.min_eq_left (Nat.min_le_right _ _)]
  case true =>
    rw [set_content_eq, set_content_eq]
    set p : Char → Bool := fun c => (decide (c = '\n' ∨ c = '\r')) with hp
    set L := splitOnP p (replaceCRLF content) with hL
    have hfree : ∀ seg ∈ L, ∀ c ∈ seg, p c = false := splitOnP_sep_free p _
    have hnocr : ∀ c ∈ joinNl L, c ≠ '\r' := by
      intro c hc
      rcases mem_joinNl L c hc with rfl | ⟨seg, hs, hcs⟩
      · decide
      · have := hfree seg hs c hcs
        simp [hp] at this
        exact this.2
    have hrep : replaceCRLF (joinNl L) = joinNl L := replaceCRLF_no_cr _ hnocr
    have hsplit : splitOnP p (joinNl L) = L :=
      splitOnP_joinNl p L (by simp [hp]) hfree (splitOnP_ne_nil p _)
    simp only [TextInput.mk.injEq]
    simp [get_content_eq_joinNl, hrep, hsplit,
      Nat.min_eq_left (Nat.min_le_right _ _)]

/-! ### Byte-slice and UTF-16 truncation lemmas -/

theorem utf8L_append (a b : List Char) : utf8L (a ++ b) = utf8L a + utf8L b := by
  simp [utf8L]

theorem utf16L_append (a b : List Char) : utf16L (a ++ b) = utf16L a + utf16L b := by
  simp [utf16L]

theorem utf8L_cons (c : Char) (l : List Char) : utf8L (c :: l) = c.utf8Size + utf8L l := by
  simp [utf8L]

theorem utf16L_cons (c : Char) (l : List Char) :
    utf16L (c :: l) = utf16Size c + utf16L l := by
  simp [utf16L]

theorem utf16Size_cases (c : Char) : utf16Size c = 1 ∨ utf16Size c = 2 := by
  unfold utf16Size
  split <;> simp

theorem takeBytes_append_dropBytes (l : List Char) :
    ∀ i, takeBytes l i ++ dropBytes l i = l := by
  induction l with
  | nil => intro i; rfl
  | cons c cs ih =>
    intro i
    by_cases h : c.utf8Size ≤ i
    · simp [takeBytes, dropBytes, h, ih]
    · simp [takeBytes, dropBytes, h]

theorem takeBytes_utf8L_take (l : List Char) :
    ∀ k, takeBytes l (utf8L (l.take k)) = l.take k := by
  induction l with
  | nil => intro k; simp [takeBytes]
  | cons c cs ih =>
    intro k
    cases k with
    | zero => simp [takeBytes_zero, utf8L]
    | succ k =>
      rw [List.take_succ_cons, utf8L_cons]
      have h : c.utf8Size ≤ c.utf8Size + utf8L (cs.take k) := by omega
      simp [takeBytes, h, ih]

theorem dropBytes_utf8L_take (l : List Char) :
    ∀ k, dropBytes l (utf8L (l.take k)) = l.drop k := by
  induction l with
  | nil => intro k; simp [dropBytes]
  | cons c cs ih =>
    intro k
    cases k with
    | zero =>
      have := utf8Size_pos c
      simp [utf8L, dropBytes]
      omega
    | succ k =>
      rw [List.take_succ_cons, utf8L_cons]
      have h : c.utf8Size ≤ c.utf8Size + utf8L (cs.take k) := by omega
      simp [dropBytes, h, ih]

theorem dropBytes_append_exact (a : List Char) :
    ∀ (b : List Char) (d : Nat), dropBytes (a ++ b) (utf8L a + d) = dropBytes b d := by
  induction a with
  | nil => intro b d; simp [utf8L]
  | cons c cs ih =>
    intro b d
    rw [utf8L_cons]
    have h : c.utf8Size ≤ c.utf8Size + utf8L cs + d := by omega
    simp only [List.cons_append, dropBytes, h, if_pos]
    rw [show c.utf8Size + utf8L cs + d - c.utf8Size = utf8L cs + d from by omega]
    exact ih b d

/-- Splitting a byte range below a character boundary: if `i` is the byte
length of a character prefix and `i ≤ j`, dropping `j` bytes is dropping
`i` bytes and then `j - i` more. -/
theorem dropBytes_of_boundary (l : List Char) (k j : Nat)
    (hj : utf8L (l.take k) ≤ j) :
    dropBytes l j = dropBytes (dropBytes l (utf8L (l.take k))) (j - utf8L (l.take k)) := by
  conv_lhs => rw [← List.take_append_drop k l]
  rw [show j = utf8L (l.take k) + (j - utf8L (l.take k)) from by omega,
    dropBytes_append_exact, dropBytes_utf8L_take]
  rw [show utf8L (l.take k) + (j - utf8L (l.take k)) - utf8L (l.take k)
    = j - utf8L (l.take k) from by omega]

theorem lofncuGo_shift (text : List Char) :
    ∀ (n u8 a16 : Nat), a16 ≤ n →
      lofncuGo text n u8 a16 = u8 + lofncuGo text (n - a16) 0 0 := by
  induction text with
  | nil => intro n u8 a16 _; simp [lofncuGo]
  | cons c cs ih =>
    intro n u8 a16 h
    simp only [lofncuGo]
    by_cases hc : a16 + utf16Size c > n
    · rw [if_pos hc, if_pos (by omega : 0 + utf16Size c > n - a16)]
      omega
    · rw [if_neg hc, if_neg (by omega : ¬ (0 + utf16Size c > n - a16))]
      rw [ih n (u8 + c.utf8Size) (a16 + utf16Size c) (by omega),
        ih (n - a16) (0 + c.utf8Size) (0 + utf16Size c) (by omega)]
      rw [show n - (a16 + utf16Size c) = n - a16 - (0 + utf16Size c) from by omega]
      omega

/-- Specification of `len_of_first_n_code_units`: the result is the byte
length of a character prefix whose UTF-16 length is at most `n`, maximal
in the sense that the next character (if any) would overflow `n`. -/
theorem lofncu_spec (text : List Char) :
    ∀ n : Nat, ∃ k,
      len_of_first_n_code_units text n = utf8L (text.take k) ∧
      utf16L (text.take k) ≤ n ∧
      (text.drop k = [] ∨
        ∃ c rest, text.drop k = c :: rest ∧ n < utf16L (text.take k) + utf16Size c) := by
  induction text with
  | nil =>
    intro n
    exact ⟨0, by simp [len_of_first_n_code_units, lofncuGo, utf8L],
      by simp [utf16L], Or.inl rfl⟩
  | cons c cs ih =>
    intro n
    by_cases hc : utf16Size c > n
    · refine ⟨0, ?_, by simp [utf16L], Or.inr ⟨c, cs, rfl, by simp [utf16L]; omega⟩⟩
      simp [len_of_first_n_code_units, lofncuGo, utf8L]
      omega
    · obtain ⟨k, hk1, hk2, hk3⟩ := ih (n - utf16Size c)
      refine ⟨k + 1, ?_, ?_, ?_⟩
      · have h1 : len_of_first_n_code_units (c :: cs) n
            = c.utf8Size + len_of_first_n_code_units cs (n - utf16Size c) := by
          simp only [len_of_first_n_code_units, lofncuGo]
          rw [if_neg (by omega : ¬ (0 + utf16Size c > n))]
          rw [lofncuGo_shift cs n (0 + c.utf8Size) (0 + utf16Size c) (by omega)]
          rw [show n - (0 + utf16Size c) = n - utf16Size c from by omega]
          omega
        rw [h1, hk1, List.take_succ_cons, utf8L_cons]
      · rw [List.take_succ_cons, utf16L_cons]
        omega
      · rw [List.drop_succ_cons]
        rcases hk3 with h | ⟨c2, rest, hdrop, hover⟩
        · exact Or.inl h
        · refine Or.inr ⟨c2, rest, hdrop, ?_⟩
          rw [List.take_succ_cons, utf16L_cons]
          omega

/-! ### UTF-16 accounting for `replace_selection` -/

theorem linesU16_append (a b : List (List Char)) :
    linesU16 (a ++ b) = linesU16 a + linesU16 b := by
  simp [linesU16]

theorem linesU16_cons (l : List Char) (X : List (List Char)) :
    linesU16 (l :: X) = utf16L l + 1 + linesU16 X := by
  simp [linesU16]

theorem u16foldl_shift (ls : List (List Char)) :
    ∀ a : Nat, ls.foldl (fun m l => m + utf16L l + 1) a = a + linesU16 ls := by
  induction ls with
  | nil => intro a; simp [linesU16]
  | cons l rest ih =>
    intro a
    rw [List.foldl_cons, ih (a + utf16L l + 1), linesU16_cons]
    omega

theorem utf16_len_eq (ls : List (List Char)) : utf16_len ls = linesU16 ls - 1 := by
  unfold utf16_len
  rw [u16foldl_shift ls 0]
  omega

theorem u16_split2 (l : List Char) (i : Nat) :
    utf16L l = utf16L (takeBytes l i) + utf16L (dropBytes l i) := by
  rw [← utf16L_append, takeBytes_append_dropBytes]

theorem u16_split3 (la : List Char) (k ei : Nat) (hle : utf8L (la.take k) ≤ ei) :
    utf16L la = utf16L (takeBytes la (utf8L (la.take k)))
      + utf16L (sliceBytes la (utf8L (la.take k)) ei)
      + utf16L (dropBytes la ei) := by
  have h2 := dropBytes_of_boundary la k ei hle
  have h3 : sliceBytes la (utf8L (la.take k)) ei
      ++ dropBytes (dropBytes la (utf8L (la.take k))) (ei - utf8L (la.take k))
      = dropBytes la (utf8L (la.take k)) := by
    unfold sliceBytes
    exact takeBytes_append_dropBytes (dropBytes la (utf8L (la.take k))) _
  have h4 := u16_split2 la (utf8L (la.take k))
  rw [h4, ← h3, utf16L_append, ← h2]
  omega

theorem modifyHead_ne_nil (f : List Char → List Char) (X : List (List Char))
    (h : X ≠ []) : X.modifyHead f ≠ [] := by
  cases X with
  | nil => exact absurd rfl h
  | cons a rest => simp [List.modifyHead]

theorem linesU16_modifyHead (pre : List Char) (X : List (List Char)) (h : X ≠ []) :
    linesU16 (X.modifyHead (pre ++ ·)) = utf16L pre + linesU16 X := by
  cases X with
  | nil => exact absurd rfl h
  | cons a rest =>
    simp [List.modifyHead, linesU16_cons, utf16L_append]
    omega

theorem linesU16_modifyLast (suf : List Char) :
    ∀ X : List (List Char), X ≠ [] →
      linesU16 (modifyLast (· ++ suf) X) = linesU16 X + utf16L suf := by
  intro X
  induction X with
  | nil => intro h; exact absurd rfl h
  | cons a rest ih =>
    intro _
    cases rest with
    | nil => simp [modifyLast, linesU16_cons, utf16L_append]; omega
    | cons b rest2 =>
      rw [show modifyLast (· ++ suf) (a :: b :: rest2)
          = a :: modifyLast (· ++ suf) (b :: rest2) from rfl,
        linesU16_cons, linesU16_cons, ih (by simp)]
      omega

theorem linesU16_joinNl :
    ∀ segs : List (List Char), segs ≠ [] →
      linesU16 segs = utf16L (joinNl segs) + 1 := by
  intro segs
  induction segs with
  | nil => intro h; exact absurd rfl h
  | cons l rest ih =>
    intro _
    cases rest with
    | nil => simp [linesU16, joinNl]
    | cons l2 rest2 =>
      rw [linesU16_cons, ih (by simp),
        show joinNl (l :: l2 :: rest2) = l ++ '\n' :: joinNl (l2 :: rest2) from by
          simp [joinNl],
        utf16L_append, utf16L_cons,
        show utf16Size '\n' = 1 from by decide]
      omega

theorem linesU16_splitNl (tr : List Char) :
    linesU16 (splitOnP (fun c => c = '\n') tr) = utf16L tr + 1 := by
  rw [linesU16_joinNl _ (splitOnP_ne_nil _ _), joinNl_splitOnP]

theorem list_decomp_one (L : List (List Char)) (a : Nat) (ha : a < L.length) :
    L = L.take a ++ L.getD a [] :: L.drop (a + 1) := by
  conv_lhs => rw [← List.take_append_drop a L]
  rw [List.drop_eq_getElem_cons ha, List.getD_eq_getElem L [] ha]

theorem list_decomp_two (L : List (List Char)) (a b : Nat) (hab : a < b)
    (hb : b < L.length) :
    L = L.take a ++ L.getD a [] ::
      ((L.take b).drop (a + 1) ++ L.getD b [] :: L.drop (b + 1)) := by
  have h1 := list_decomp_one L a (lt_trans hab hb)
  have h2 : L.drop (a + 1) = (L.take b).drop (a + 1) ++ L.drop b := by
    rw [List.drop_take b (a + 1) L,
      show L.drop b = (L.drop (a + 1)).drop (b - (a + 1)) from by
        rw [List.drop_drop]
        congr 1
        omega]
    exact (List.take_append_drop (b - (a + 1)) (L.drop (a + 1))).symm
  have h3 : L.drop b = L.getD b [] :: L.drop (b + 1) := by
    rw [List.drop_eq_getElem_cons hb, List.getD_eq_getElem L [] hb]
  conv_lhs => rw [h1, h2, h3]

theorem selU_fold_mid (mid : List (List Char)) :
    ∀ acc : Nat,
      mid.foldl (fun a line => a + utf16L ['\n'] + utf16L line) acc
        = acc + linesU16 mid := by
  induction mid with
  | nil => intro acc; simp [linesU16]
  | cons l rest ih =>
    intro acc
    rw [List.foldl_cons, ih, linesU16_cons,
      show utf16L ['\n'] = 1 from by decide]
    omega

theorem selU_same_line (s : TextInput) (h1 : has_selection s = true)
    (heq : (selection_start s).line = (selection_end s).line) :
    selection_utf16_len s =
      utf16L (sliceBytes (s.lines.getD (selection_start s).line [])
        (selection_start s).index (selection_end s).index) := by
  unfold selection_utf16_len fold_selection_slices sorted_selection_bounds
  simp [h1, heq]

theorem selU_multi_line (s : TextInput) (h1 : has_selection s = true)
    (hne2 : (selection_start s).line ≠ (selection_end s).line) :
    selection_utf16_len s =
      utf16L (dropBytes (s.lines.getD (selection_start s).line [])
          (selection_start s).index)
        + linesU16 ((s.lines.take (selection_end s).line).drop
            ((selection_start s).line + 1))
        + 1
        + utf16L (takeBytes (s.lines.getD (selection_end s).line [])
            (selection_end s).index) := by
  unfold selection_utf16_len fold_selection_slices sorted_selection_bounds
  simp only [h1, if_pos, if_neg hne2]
  rw [selU_fold_mid]
  rw [show utf16L ['\n'] = 1 from by decide]
  omega

/-- The line list produced by the splice of `replace_selection` when the
`max_length` guard lets it proceed. -/
theorem replace_selection_unfold (s : TextInput) (insert : List Char) (m : Nat)
    (hsel : has_selection s = true) (hmax : s.max_length = some m)
    (hlt : utf16_len s.lines - selection_utf16_len s < m) :
    (replace_selection s insert).lines =
      s.lines.take (selection_start s).line ++
        modifyLast
          (· ++ dropBytes (s.lines.getD (selection_end s).line [])
            (selection_end s).index)
          ((if s.multiline then
              splitOnP (fun c => c = '\n')
                (takeBytes insert (len_of_first_n_code_units insert
                  (m - (utf16_len s.lines - selection_utf16_len s))))
            else
              [takeBytes insert (len_of_first_n_code_units insert
                (m - (utf16_len s.lines - selection_utf16_len s)))]).modifyHead
            (takeBytes (s.lines.getD (selection_start s).line [])
              (selection_start s).index ++ ·)) ++
      s.lines.drop ((selection_end s).line + 1) := by
  have hnge : ¬ (utf16_len s.lines - selection_utf16_len s ≥ m) := by omega
  simp [replace_selection, hsel, hmax, hnge, sorted_selection_bounds, clear_selection]

/-- UTF-16 accounting for the original buffer: the per-line sums split
into the part before the selection start line, the prefix of the start
line, the UTF-16 length of the selected text, the suffix of the end line,
one joining unit, and the part after the end line. -/
theorem S_old_decomp (s : TextInput) (h1 : has_selection s = true)
    (hord : (selection_start s).line < (selection_end s).line ∨
      ((selection_start s).line = (selection_end s).line ∧
        (selection_start s).index ≤ (selection_end s).index))
    (hb : (selection_end s).line < s.lines.length)
    (hbound : ∃ k, (selection_start s).index =
      utf8L ((s.lines.getD (selection_start s).line []).take k)) :
    linesU16 s.lines =
      linesU16 (s.lines.take (selection_start s).line)
        + utf16L (takeBytes (s.lines.getD (selection_start s).line [])
            (selection_start s).index)
        + selection_utf16_len s
        + utf16L (dropBytes (s.lines.getD (selection_end s).line [])
            (selection_end s).index)
        + 1
        + linesU16 (s.lines.drop ((selection_end s).line + 1)) := by
  obtain ⟨k, hk⟩ := hbound
  rcases hord with hlt2 | ⟨heq, hle⟩
  · -- selection spans at least two lines
    have hdec := list_decomp_two s.lines (selection_start s).line
      (selection_end s).line hlt2 hb
    have hS := congrArg linesU16 hdec
    rw [linesU16_append, linesU16_cons, linesU16_append, linesU16_cons] at hS
    have hla := u16_split2 (s.lines.getD (selection_start s).line [])
      (selection_start s).index
    have hlb := u16_split2 (s.lines.getD (selection_end s).line [])
      (selection_end s).index
    rw [selU_multi_line s h1 (by omega)]
    omega
  · -- selection within one line
    have hdec := list_decomp_one s.lines (selection_start s).line (by omega)
    have hS := congrArg linesU16 hdec
    rw [linesU16_append, linesU16_cons] at hS
    have hsplit3 := u16_split3 (s.lines.getD (selection_start s).line []) k
      (selection_end s).index (by rw [← hk]; exact hle)
    rw [← hk] at hsplit3
    rw [selU_same_line s h1 heq, ← heq]
    omega

/-- UTF-16 accounting for the spliced buffer produced by
`replace_selection`. -/
theorem S_new_decomp (s : TextInput) (insert : List Char) (m : Nat)
    (hsel : has_selection s = true) (hmax : s.max_length = some m)
    (hlt : utf16_len s.lines - selection_utf16_len s < m) :
    linesU16 (replace_selection s insert).lines =
      linesU16 (s.lines.take (selection_start s).line)
        + utf16L (takeBytes (s.lines.getD (selection_start s).line [])
            (selection_start s).index)
        + utf16L (takeBytes insert (len_of_first_n_code_units insert
            (m - (utf16_len s.lines - selection_utf16_len s))))
        + utf16L (dropBytes (s.lines.getD (selection_end s).line [])
            (selection_end s).index)
        + 1
        + linesU16 (s.lines.drop ((selection_end s).line + 1)) := by
  rw [replace_selection_unfold s insert m hsel hmax hlt]
  set TR := takeBytes insert (len_of_first_n_code_units insert
    (m - (utf16_len s.lines - selection_utf16_len s))) with hTR
  have hins0 : (if s.multiline then splitOnP (fun c => c = '\n') TR else [TR]) ≠ [] := by
    by_cases hm : s.multiline
    · simp [hm, splitOnP_ne_nil]
    · simp [hm]
  have hins0U : linesU16 (if s.multiline then splitOnP (fun c => c = '\n') TR else [TR])
      = utf16L TR + 1 := by
    by_cases hm : s.multiline
    · simp [hm, linesU16_splitNl]
    · simp [hm, linesU16_cons, linesU16]
  rw [linesU16_append, linesU16_append,
    linesU16_modifyLast _ _ (modifyHead_ne_nil _ _ hins0),
    linesU16_modifyHead _ _ hins0, hins0U]
  omega

/-! ## Theorems -/

/-- C1: the claim that `selection_start() ≤ selection_end()` and the
edit-point bounds hold after every public operation fails on the code: on
a valid state (its own `assert_ok_selection` holds) with a same-line
backward selection, the public `handle_keydown_aux` with `(None, Key::End,
no modifiers)` sets the edit point index to the line length without
touching the selection origin, after which `assert_ok_selection` is false
and `selection_end() < selection_start()`. -/
theorem c1_end_key_breaks_selection_invariant :
    assert_ok_selection endKeyState = true ∧
    assert_ok_selection (handle_keydown_aux endKeyState none Key.End noMods).1 = false ∧
    ptLt (selection_end (handle_keydown_aux endKeyState none Key.End noMods).1)
      (selection_start (handle_keydown_aux endKeyState none Key.End noMods).1) = true := by
  decide

/-- C2: the claim that no public operation can leave a byte index in the
middle of a multi-byte code point fails on the code: on single-line
content "é" (one two-byte character), `set_selection_range(1, 1, Forward)`
clamps the offsets only against the content byte length and leaves both
the edit point and the selection origin at byte index 1, which is not a
character boundary — yet the code accepts the state
(`assert_ok_selection` checks only the byte bound). -/
theorem c2_set_selection_range_mid_code_point :
    isCharBoundary
      ((set_selection_range accentState 1 1 SelectionDirection.Forward).lines.getD
        (set_selection_range accentState 1 1 SelectionDirection.Forward).edit_point.line [])
      (set_selection_range accentState 1 1 SelectionDirection.Forward).edit_point.index
      = false ∧
    (set_selection_range accentState 1 1 SelectionDirection.Forward).edit_point = ⟨0, 1⟩ ∧
    (set_selection_range accentState 1 1 SelectionDirection.Forward).selection_origin
      = some ⟨0, 1⟩ ∧
    assert_ok_selection (set_selection_range accentState 1 1 SelectionDirection.Forward)
      = true := by
  decide

/-- C5 (counterexample): it is not the case that `replace_selection`
truncates the inserted text to exactly `max_length` minus the
post-deletion UTF-16 length code units: with an empty buffer, a zero-width
selection, `max_length = 1` and insert text "𝄞" (two UTF-16 code units),
the allowed count is exactly 1 but the truncated insertion is empty (zero
code units), because cutting after one code unit would split the
surrogate pair. -/
theorem c5_exact_truncation_counterexample :
    utf16_len surrogateState.lines - selection_utf16_len surrogateState = 0 ∧
    surrogateState.max_length = some 1 ∧
    utf16Size gclef = 2 ∧
    len_of_first_n_code_units [gclef] 1 = 0 ∧
    utf16_len (replace_selection surrogateState [gclef]).lines = 0 := by
  decide

/-- C5 (amended): with a selection, a `max_length`, and an insert text
whose UTF-16 length strictly exceeds the allowed count
`max_length − post-deletion length`, `replace_selection` truncates the
insert text to the longest code-point prefix whose UTF-16 length is at
most the allowed count — exactly the allowed count unless that cut would
fall inside a surrogate pair (a character of UTF-16 size two), in which
case one code unit fewer — and the resulting content UTF-16 length is at
most `max_length`. -/
theorem c5_truncation_amended (s : TextInput) (insert : List Char) (m : Nat)
    (hsel : has_selection s = true)
    (hmax : s.max_length = some m)
    (hlt : utf16_len s.lines - selection_utf16_len s < m)
    (hord : (selection_start s).line < (selection_end s).line ∨
      ((selection_start s).line = (selection_end s).line ∧
        (selection_start s).index ≤ (selection_end s).index))
    (hb : (selection_end s).line < s.lines.length)
    (hbound : ∃ k, (selection_start s).index =
      utf8L ((s.lines.getD (selection_start s).line []).take k))
    (hpush : m - (utf16_len s.lines - selection_utf16_len s) < utf16L insert) :
    ∃ k,
      takeBytes insert (len_of_first_n_code_units insert
          (m - (utf16_len s.lines - selection_utf16_len s))) = insert.take k ∧
      utf16L (insert.take k) ≤ m - (utf16_len s.lines - selection_utf16_len s) ∧
      (utf16L (insert.take k) = m - (utf16_len s.lines - selection_utf16_len s) ∨
        ∃ c rest, insert.drop k = c :: rest ∧ utf16Size c = 2 ∧
          m - (utf16_len s.lines - selection_utf16_len s)
            < utf16L (insert.take k) + 2) ∧
      utf16_len (replace_selection s insert).lines ≤ m := by
  obtain ⟨k, hk1, hk2, hk3⟩ :=
    lofncu_spec insert (m - (utf16_len s.lines - selection_utf16_len s))
  refine ⟨k, ?_, hk2, ?_, ?_⟩
  · rw [hk1, takeBytes_utf8L_take]
  · rcases hk3 with hempty | ⟨c, rest, hdrop, hover⟩
    · have htk : insert.take k = insert :=
        List.take_of_length_le (List.drop_eq_nil_iff.mp hempty)
      rw [htk] at hk2
      omega
    · rcases utf16Size_cases c with hc1 | hc2
      · left; omega
      · by_cases hexact :
          utf16L (insert.take k) = m - (utf16_len s.lines - selection_utf16_len s)
        · left; exact hexact
        · right; exact ⟨c, rest, hdrop, hc2, by omega⟩
  · have hold := S_old_decomp s hsel hord hb hbound
    have hnew := S_new_decomp s insert m hsel hmax hlt
    have htr : utf16L (takeBytes insert (len_of_first_n_code_units insert
        (m - (utf16_len s.lines - selection_utf16_len s))))
        ≤ m - (utf16_len s.lines - selection_utf16_len s) := by
      rw [hk1, takeBytes_utf8L_take]
      exact hk2
    have he1 := utf16_len_eq s.lines
    have he2 := utf16_len_eq (replace_selection s insert).lines
    omega

/-- C5 (amended, witness): empty single-line buffer, zero-width selection,
`max_length = 2`, insert "abc" (three one-unit characters): the truncation
keeps exactly two characters and the resulting UTF-16 length is exactly
the limit. -/
theorem c5_truncation_amended_witness :
    ∃ k,
      takeBytes ['a', 'b', 'c'] (len_of_first_n_code_units ['a', 'b', 'c']
          (2 - (utf16_len c5WitnessState.lines - selection_utf16_len c5WitnessState)))
        = List.take k ['a', 'b', 'c'] ∧
      utf16L (List.take k ['a', 'b', 'c'])
        ≤ 2 - (utf16_len c5WitnessState.lines - selection_utf16_len c5WitnessState) ∧
      (utf16L (List.take k ['a', 'b', 'c'])
          = 2 - (utf16_len c5WitnessState.lines - selection_utf16_len c5WitnessState) ∨
        ∃ c rest, List.drop k ['a', 'b', 'c'] = c :: rest ∧ utf16Size c = 2 ∧
          2 - (utf16_len c5WitnessState.lines - selection_utf16_len c5WitnessState)
            < utf16L (List.take k ['a', 'b', 'c']) + 2) ∧
      utf16_len (replace_selection c5WitnessState ['a', 'b', 'c']).lines ≤ 2 :=
  c5_truncation_amended c5WitnessState ['a', 'b', 'c'] 2
    (by decide) rfl (by decide)
    (Or.inr ⟨rfl, by decide⟩) (by decide) ⟨0, by decide⟩ (by decide)

/-- C7 (counterexample): `adjust_horizontal_to_limit` with
`update_cursor = false` does not leave every state unchanged: on content
"ab" fully selected forward, it collapses the selection (the edit point
jumps to the selection start and the origin is dropped). -/
theorem c7_to_limit_counterexample :
    adjust_horizontal_to_limit limitState Direction.Backward Selection.NotSelected false
      ≠ limitState ∧
    adjust_horizontal_to_limit limitState Direction.Backward Selection.NotSelected false
      = { limitState with
            edit_point := ⟨0, 0⟩,
            selection_origin := none,
            selection_direction := SelectionDirection.None } := by
  decide

/-- C7 (amended): with `update_cursor = false`,
`adjust_horizontal_to_limit` never moves the edit point to a document
limit; the result is exactly the state produced by the shared
`adjust_selection_for_horizontal_change` pre-step (which collapses an
existing selection when `select = NotSelected`, and records the origin and
direction when `select = Selected`); in particular the state is unchanged
when there is no selection and `select = NotSelected`. -/
theorem c7_to_limit_no_cursor_update (s : TextInput) (direction : Direction)
    (select : Selection) :
    adjust_horizontal_to_limit s direction select false =
      (adjust_selection_for_horizontal_change s direction select).1 := by
  rcases hr : adjust_selection_for_horizontal_change s direction select with ⟨a, b⟩
  cases b <;> simp [adjust_horizontal_to_limit, hr]

/-- C9: on the multiline buffer ["abc", "de"] with edit point (1,2),
`adjust_vertical(-1, NotSelected)` preserves the character column and
lands at (0,2); a second `adjust_vertical(-1, NotSelected)` clamps to
(0,0). -/
theorem c9_vertical_scenario :
    (adjust_vertical verticalState (-1) Selection.NotSelected).edit_point = ⟨0, 2⟩ ∧
    (adjust_vertical (adjust_vertical verticalState (-1) Selection.NotSelected) (-1)
        Selection.NotSelected).edit_point = ⟨0, 0⟩ := by
  decide

/-- C8: handling Enter or KeypadEnter with no printable character and any
modifier set invokes `handle_return`, which inserts a newline at the caret
(through `insert_char`) and reacts `DispatchInput` when the input is
multiline, and returns `TriggerDefaultAction` with the state unchanged
when the input is single-line. -/
theorem c8_enter_dispatch (s : TextInput) (mods : KeyModifiers) :
    handle_keydown_aux s none Key.Enter mods = handle_return s ∧
    handle_keydown_aux s none Key.KpEnter mods = handle_return s ∧
    handle_return s =
      (if s.multiline then (insert_char s '\n', KeyReaction.DispatchInput)
       else (s, KeyReaction.TriggerDefaultAction)) := by
  refine ⟨?_, ?_, ?_⟩
  · simp [handle_keydown_aux]
  · simp [handle_keydown_aux]
  · by_cases h : s.multiline <;> simp [handle_return, h]

/-- C10: `get_selection_text` returns `None` exactly when the concatenated
selection slices are empty; for a zero-width selection (origin present and
equal to the edit point) it returns `None` even though `has_selection` is
true, and the copy key (`Ctrl+C` on a non-mac build) leaves the whole
state — in particular the clipboard — unchanged. -/
theorem c10_zero_width_selection_copies_nothing (s : TextInput) :
    (get_selection_text s = none ↔
      fold_selection_slices s [] (fun a sl => a ++ sl) = []) ∧
    (s.selection_origin = some s.edit_point →
      has_selection s = true ∧ get_selection_text s = none ∧
      handle_keydown_aux s none Key.C ctrlMods = (s, KeyReaction.DispatchInput)) := by
  have hiff : get_selection_text s = none ↔
      fold_selection_slices s [] (fun a sl => a ++ sl) = [] := by
    simp only [get_selection_text]
    split <;> simp_all [List.isEmpty_iff]
  refine ⟨hiff, fun h => ?_⟩
  have h1 : has_selection s = true := by simp [has_selection, h]
  have hst : selection_start s = s.edit_point := by
    unfold selection_start selection_origin_or_edit_point
    cases s.selection_direction <;> simp [h]
  have hen : selection_end s = s.edit_point := by
    unfold selection_end selection_origin_or_edit_point
    cases s.selection_direction <;> simp [h]
  have hfold : fold_selection_slices s [] (fun a sl => a ++ sl) = [] := by
    unfold fold_selection_slices sorted_selection_bounds
    simp [h1, hst, hen, sliceBytes, takeBytes_zero]
  have hnone : get_selection_text s = none := hiff.mpr hfold
  refine ⟨h1, hnone, ?_⟩
  simp [handle_keydown_aux, is_control_key, ctrlMods, hnone]

/-- C10 (witness): the zero-width-selection case at a concrete state:
content "ab", origin and edit point both at index 1, "z" on the
clipboard. -/
theorem c10_zero_width_selection_witness :
    has_selection zeroWidthState = true ∧
    get_selection_text zeroWidthState = none ∧
    handle_keydown_aux zeroWidthState none Key.C ctrlMods
      = (zeroWidthState, KeyReaction.DispatchInput) :=
  (c10_zero_width_selection_copies_nothing zeroWidthState).2 (by decide)

/-- C3: for every state whose line list is non-empty (as the data-model
invariants require) and every byte offset `x` with `x ≤ len()`, converting
the offset to a text point and back is the identity:
`text_point_to_offset(offset_to_text_point(x)) = x`. -/
theorem c3_offset_roundtrip (s : TextInput) (hne : s.lines ≠ []) (x : Nat)
    (hx : x ≤ len s.lines) :
    text_point_to_offset s.lines (offset_to_text_point s.lines x) = x :=
  otp_tpto_roundtrip_lines s.lines hne x hx

/-- C3 (witness): the round trip at offset 3 on the two-line buffer
["abc", "de"] (content byte length 6); offset 3 is the position of the
inter-line newline, which maps to the end of the first line and back. -/
theorem c3_offset_roundtrip_witness :
    verticalState.lines ≠ [] ∧ (3 : Nat) ≤ len verticalState.lines ∧
    text_point_to_offset verticalState.lines
      (offset_to_text_point verticalState.lines 3) = 3 :=
  ⟨by decide, by decide,
    c3_offset_roundtrip verticalState (by decide) 3 (by decide)⟩

/-- C4: with a selection and a `max_length`, `replace_selection` aborts
without changing anything — whatever the insert text, even empty — when
the UTF-16 length remaining after deleting the selection already meets or
exceeds the limit; when that remaining length is strictly below the
limit, the deletion is performed even with an empty insert text: the
selection is cleared and the selected range is spliced out of the buffer,
the edit point landing at the start of the former selection. -/
theorem c4_replace_selection_max_length (s : TextInput) (m : Nat)
    (hsel : has_selection s = true) (hmax : s.max_length = some m) :
    (∀ insert : List Char,
      m ≤ utf16_len s.lines - selection_utf16_len s →
      replace_selection s insert = s) ∧
    (utf16_len s.lines - selection_utf16_len s < m →
      replace_selection s [] =
        { s with
          selection_origin := none,
          selection_direction := SelectionDirection.None,
          lines := s.lines.take (selection_start s).line ++
            [takeBytes (s.lines.getD (selection_start s).line [])
                (selection_start s).index ++
             dropBytes (s.lines.getD (selection_end s).line [])
                (selection_end s).index] ++
            s.lines.drop ((selection_end s).line + 1),
          edit_point := ⟨(selection_start s).line,
            utf8L (takeBytes (s.lines.getD (selection_start s).line [])
              (selection_start s).index)⟩ }) := by
  constructor
  · intro insert hge
    simp [replace_selection, hsel, hmax, hge]
  · intro hlt
    have hnge : ¬ (utf16_len s.lines - selection_utf16_len s ≥ m) := by omega
    simp [replace_selection, hsel, hmax, hnge, sorted_selection_bounds,
      len_of_first_n_code_units, lofncuGo, takeBytes, splitOnP,
      List.modifyHead, modifyLast, clear_selection, takeBytes_zero]

/-- C4 (witness): at `c4AboveState` (remaining length 1 with limit 1) the
abort case fires for a non-empty insert; at `c4BelowState` (remaining
length 0 with limit 3) the empty-insert deletion goes through, leaving an
empty buffer with the caret at the origin of the former selection. -/
theorem c4_replace_selection_max_length_witness :
    replace_selection c4AboveState ['x'] = c4AboveState ∧
    replace_selection c4BelowState [] =
      { c4BelowState with
        selection_origin := none,
        selection_direction := SelectionDirection.None,
        lines := [[]],
        edit_point := ⟨0, 0⟩ } := by
  constructor
  · exact (c4_replace_selection_max_length c4AboveState 1 (by decide) rfl).1 ['x']
      (by decide)
  · exact ((c4_replace_selection_max_length c4BelowState 3 (by decide) rfl).2
      (by decide)).trans (by decide)

/-- C6: `set_content(get_content(), true)` is idempotent: one extra round
trip leaves the whole state — content, line count and clamped edit point
included — unchanged. -/
theorem c6_set_content_idempotent (s : TextInput) :
    set_content (set_content s (get_content s.lines) true)
      (get_content ((set_content s (get_content s.lines) true).lines)) true
      = set_content s (get_content s.lines) true :=
  set_content_roundtrip s (get_content s.lines)

end Textinput
